import Mathlib

/-!
Shallow embedding of the state model of the TodoMVC-style application in
src/src/app.rs: the Entry record, the Filter enumeration, the State struct,
and the State methods that mutate or query the entry collection through the
active filter, together with the relevant branches of App::update.
Rust method calls that can panic on an out-of-range index (slice indexing and
Option::unwrap) are embedded as Option-returning functions, with none standing
for the panic; in each such method the panic happens before any mutation, so
none carries no mutated state.
-/

namespace Todo

/-- Translation of struct Entry (src/src/app.rs lines 26-31). -/
structure Entry where
  description : String
  completed : Bool
  editing : Bool
  deriving DecidableEq, Repr

/-- Translation of enum Filter (src/src/app.rs lines 220-225). -/
inductive Filter where
  | All
  | Active
  | Completed
  deriving DecidableEq, Repr

/-- Translation of Filter::fit (src/src/app.rs lines 237-245). -/
def Filter.fit : Filter → Entry → Bool
  | .All, _ => true
  | .Active, e => !e.completed
  | .Completed, e => e.completed

/-- Translation of struct State (src/src/app.rs lines 18-24). -/
structure State where
  entries : List Entry
  filter : Filter
  value : String
  edit_value : String
  deriving DecidableEq, Repr

/-- Translation of State::total (src/src/app.rs lines 248-250). -/
def State.total (s : State) : Nat :=
  s.entries.length

/-- Translation of State::total_completed (src/src/app.rs lines 252-257). -/
def State.total_completed (s : State) : Nat :=
  (s.entries.filter (fun e => Filter.Completed.fit e)).length

/-- Translation of State::is_all_completed (src/src/app.rs lines 259-271):
the peek on the filtered iterator returns none exactly when the filtered list
is empty, in which case the method returns false; otherwise it checks that
every filtered entry is completed. -/
def State.is_all_completed (s : State) : Bool :=
  let filtered := s.entries.filter (fun e => s.filter.fit e)
  if filtered.isEmpty then false
  else filtered.all (fun e => e.completed)

/-- Translation of State::toggle_all (src/src/app.rs lines 273-279): every
entry matching the current filter gets completed set to the given value, the
others are untouched. -/
def State.toggle_all (s : State) (value : Bool) : State :=
  { s with
    entries := s.entries.map
      (fun e => if s.filter.fit e then { e with completed := value } else e) }

/-- Translation of State::clear_completed (src/src/app.rs lines 281-288): the
entry vector is replaced by its sub-sequence passing the Active predicate. -/
def State.clear_completed (s : State) : State :=
  { s with entries := s.entries.filter (fun e => Filter.Active.fit e) }

/-- Meaning of the mutation pattern shared by State::toggle, State::toggle_edit
and State::complete_edit: collect mutable references to the entries passing p
(iter_mut().filter(..)), take the idx-th such reference (get_mut(idx).unwrap())
and replace that entry by f of it, in place. The resulting backing list keeps
every other element unchanged; none embeds the unwrap panic that fires when
fewer than idx+1 entries pass p. -/
def modifyFiltered (p : Entry → Bool) (f : Entry → Entry) :
    List Entry → Nat → Option (List Entry)
  | [], _ => none
  | e :: rest, idx =>
    if p e then
      match idx with
      | 0 => some (f e :: rest)
      | n + 1 => (modifyFiltered p f rest n).map (fun l => e :: l)
    else
      (modifyFiltered p f rest idx).map (fun l => e :: l)

/-- Translation of State::toggle (src/src/app.rs lines 290-299). -/
def State.toggle (s : State) (idx : Nat) : Option State :=
  (modifyFiltered (fun e => s.filter.fit e)
      (fun e => { e with completed := !e.completed }) s.entries idx).map
    (fun l => { s with entries := l })

/-- Translation of State::toggle_edit (src/src/app.rs lines 301-310). -/
def State.toggle_edit (s : State) (idx : Nat) : Option State :=
  (modifyFiltered (fun e => s.filter.fit e)
      (fun e => { e with editing := !e.editing }) s.entries idx).map
    (fun l => { s with entries := l })

/-- Translation of State::complete_edit (src/src/app.rs lines 312-322): the
description is overwritten with val and editing is flipped, not forced false. -/
def State.complete_edit (s : State) (idx : Nat) (val : String) : Option State :=
  (modifyFiltered (fun e => s.filter.fit e)
      (fun e => { e with description := val, editing := !e.editing }) s.entries idx).map
    (fun l => { s with entries := l })

/-- Translation of State::remove (src/src/app.rs lines 324-337): the absolute
index is the first component of the idx-th element of the enumerated filtered
sub-sequence (entries.iter().enumerate().filter(..) then get(idx).unwrap()),
and Vec::remove is applied at that absolute index. -/
def State.remove (s : State) (idx : Nat) : Option State :=
  match (s.entries.enum.filter (fun pr => s.filter.fit pr.2))[idx]? with
  | none => none
  | some pr => some { s with entries := s.entries.eraseIdx pr.1 }

/-- Translation of the Msg::Add branch of App::update (src/src/app.rs lines
75-83): a fresh entry built from the draft value is pushed at the end and the
draft value is cleared. -/
def updateAdd (s : State) : State :=
  { s with
    entries := s.entries ++ [{ description := s.value, completed := false, editing := false }],
    value := "" }

/-- Translation of the Msg::ToggleEdit branch of App::update (src/src/app.rs
lines 103-106): the edit buffer is seeded from the entry at position idx of
the raw backing vector (self.state.entries[idx], a panicking absolute-index
access embedded as none), and only then is State::toggle_edit called with the
same idx, which it interprets as a filtered index. -/
def updateToggleEdit (s : State) (idx : Nat) : Option State :=
  match s.entries[idx]? with
  | none => none
  | some e => State.toggle_edit { s with edit_value := e.description } idx

/-- The filtered view of a list of entries under a filter, as produced by
iter().filter(|e| filter.fit(e)) throughout the State methods. -/
def filteredList (f : Filter) (l : List Entry) : List Entry :=
  l.filter (fun e => f.fit e)

/-- The filtered view of a state under its active filter. -/
def State.filteredView (s : State) : List Entry :=
  filteredList s.filter s.entries

/-- Absolute position and value of the idx-th entry passing p, the resolution
of a filtered index into the backing sequence. -/
def nthMatch (p : Entry → Bool) : List Entry → Nat → Option (Nat × Entry)
  | [], _ => none
  | e :: rest, idx =>
    if p e then
      match idx with
      | 0 => some (0, e)
      | n + 1 => (nthMatch p rest n).map (fun pr => (pr.1 + 1, pr.2))
    else
      (nthMatch p rest idx).map (fun pr => (pr.1 + 1, pr.2))

theorem nthMatch_cons_true_zero {p : Entry → Bool} {e : Entry} (hp : p e = true)
    (rest : List Entry) : nthMatch p (e :: rest) 0 = some (0, e) := by
  simp [nthMatch, hp]

theorem nthMatch_cons_true_succ {p : Entry → Bool} {e : Entry} (hp : p e = true)
    (rest : List Entry) (k : Nat) :
    nthMatch p (e :: rest) (k + 1) = (nthMatch p rest k).map (fun pr => (pr.1 + 1, pr.2)) := by
  simp [nthMatch, hp]

theorem nthMatch_cons_false {p : Entry → Bool} {e : Entry} (hp : ¬p e = true)
    (rest : List Entry) (i : Nat) :
    nthMatch p (e :: rest) i = (nthMatch p rest i).map (fun pr => (pr.1 + 1, pr.2)) := by
  simp [nthMatch, hp]

theorem nthMatch_none (p : Entry → Bool) :
    ∀ (l : List Entry) (i : Nat), (l.filter p).length ≤ i → nthMatch p l i = none := by
  intro l
  induction l with
  | nil => intro i _; rfl
  | cons e rest ih =>
    intro i hi
    by_cases hp : p e
    · cases i with
      | zero => simp [List.filter_cons, hp] at hi
      | succ k =>
        simp only [List.filter_cons, hp, if_pos, List.length_cons, Nat.succ_le_succ_iff] at hi
        simp [nthMatch, hp, ih k hi]
    · simp only [List.filter_cons, hp] at hi
      simp [nthMatch, hp, ih i (by simpa using hi)]

theorem nthMatch_isSome (p : Entry → Bool) :
    ∀ (l : List Entry) (i : Nat), i < (l.filter p).length →
      ∃ a e, nthMatch p l i = some (a, e) := by
  intro l
  induction l with
  | nil => intro i hi; simp at hi
  | cons x rest ih =>
    intro i hi
    by_cases hp : p x
    · cases i with
      | zero => exact ⟨0, x, by simp [nthMatch, hp]⟩
      | succ k =>
        simp only [List.filter_cons, hp, if_pos, List.length_cons, Nat.succ_lt_succ_iff] at hi
        obtain ⟨a, e, ha⟩ := ih k hi
        exact ⟨a + 1, e, by simp [nthMatch, hp, ha]⟩
    · simp only [List.filter_cons, hp] at hi
      obtain ⟨a, e, ha⟩ := ih i (by simpa using hi)
      exact ⟨a + 1, e, by simp [nthMatch, hp, ha]⟩

theorem nthMatch_spec (p : Entry → Bool) :
    ∀ (l : List Entry) (i a : Nat) (e : Entry), nthMatch p l i = some (a, e) →
      l[a]? = some e ∧ p e = true ∧ (l.filter p)[i]? = some e := by
  intro l
  induction l with
  | nil => intro i a e h; simp [nthMatch] at h
  | cons x rest ih =>
    intro i a e h
    by_cases hp : p x
    · cases i with
      | zero =>
        rw [nthMatch_cons_true_zero hp] at h
        have h2 : ((0 : Nat), x) = (a, e) := Option.some.inj h
        have ha : (0 : Nat) = a := congrArg Prod.fst h2
        have he : x = e := congrArg Prod.snd h2
        subst ha; subst he
        simp [List.filter_cons, hp]
      | succ k =>
        rw [nthMatch_cons_true_succ hp, Option.map_eq_some'] at h
        obtain ⟨pr, hpr, heq⟩ := h
        have h1 := ih k pr.1 pr.2 (by simpa using hpr)
        have ha : pr.1 + 1 = a := congrArg Prod.fst heq
        have he : pr.2 = e := congrArg Prod.snd heq
        subst ha; subst he
        simpa [List.filter_cons, hp] using h1
    · rw [nthMatch_cons_false hp, Option.map_eq_some'] at h
      obtain ⟨pr, hpr, heq⟩ := h
      have h1 := ih i pr.1 pr.2 (by simpa using hpr)
      have ha : pr.1 + 1 = a := congrArg Prod.fst heq
      have he : pr.2 = e := congrArg Prod.snd heq
      subst ha; subst he
      simpa [List.filter_cons, hp] using h1

theorem modifyFiltered_eq_nthMatch (p : Entry → Bool) (f : Entry → Entry) :
    ∀ (l : List Entry) (i : Nat),
      modifyFiltered p f l i = (nthMatch p l i).map (fun pr => l.set pr.1 (f pr.2)) := by
  intro l
  induction l with
  | nil => intro i; rfl
  | cons e rest ih =>
    intro i
    by_cases hp : p e
    · cases i with
      | zero => simp [modifyFiltered, nthMatch, hp]
      | succ k =>
        cases hnm : nthMatch p rest k with
        | none => simp [modifyFiltered, nthMatch, hp, ih, hnm]
        | some pr => simp [modifyFiltered, nthMatch, hp, ih, hnm]
    · cases hnm : nthMatch p rest i with
      | none => simp [modifyFiltered, nthMatch, hp, ih, hnm]
      | some pr => simp [modifyFiltered, nthMatch, hp, ih, hnm]

theorem enumFrom_filter_getElem (p : Entry → Bool) :
    ∀ (l : List Entry) (n i : Nat),
      ((List.enumFrom n l).filter (fun pr => p pr.2))[i]? =
        (nthMatch p l i).map (fun pr => (pr.1 + n, pr.2)) := by
  intro l
  induction l with
  | nil => intro n i; rfl
  | cons e rest ih =>
    intro n i
    by_cases hp : p e
    · cases i with
      | zero => simp [List.enumFrom_cons, List.filter_cons, nthMatch, hp]
      | succ k =>
        cases hnm : nthMatch p rest k with
        | none =>
          simp [List.enumFrom_cons, List.filter_cons, nthMatch, hp, ih rest.length, ih (n + 1), hnm]
        | some pr =>
          simp only [List.enumFrom_cons, List.filter_cons, hp, if_pos, nthMatch,
            List.getElem?_cons_succ, ih (n + 1), hnm, Option.map_some']
          simp [Nat.add_assoc, Nat.add_comm 1 n]
    · cases hnm : nthMatch p rest i with
      | none => simp [List.enumFrom_cons, List.filter_cons, nthMatch, hp, ih (n + 1), hnm]
      | some pr =>
        simp only [List.enumFrom_cons, List.filter_cons, hp, if_neg, nthMatch,
          Bool.false_eq_true, not_false_iff, ih (n + 1), hnm, Option.map_some']
        simp [Nat.add_assoc, Nat.add_comm 1 n]

theorem enum_filter_getElem (p : Entry → Bool) (l : List Entry) (i : Nat) :
    (l.enum.filter (fun pr => p pr.2))[i]? = nthMatch p l i := by
  have h := enumFrom_filter_getElem p l 0 i
  simpa [List.enum] using h

theorem modifyFiltered_resolved (p : Entry → Bool) (f : Entry → Entry) (l : List Entry)
    (i : Nat) (h : i < (l.filter p).length) :
    ∃ a e, nthMatch p l i = some (a, e) ∧ l[a]? = some e ∧ p e = true ∧
      (l.filter p)[i]? = some e ∧ modifyFiltered p f l i = some (l.set a (f e)) := by
  obtain ⟨a, e, ha⟩ := nthMatch_isSome p l i h
  obtain ⟨h1, h2, h3⟩ := nthMatch_spec p l i a e ha
  exact ⟨a, e, ha, h1, h2, h3, by rw [modifyFiltered_eq_nthMatch, ha]; rfl⟩

theorem getElem?_lt_of_some {l : List Entry} {a : Nat} {e : Entry}
    (h : l[a]? = some e) : a < l.length :=
  (List.getElem?_eq_some.mp h).1

theorem getElem?_set_self {l : List Entry} {a : Nat} {e v : Entry}
    (h : l[a]? = some e) : (l.set a v)[a]? = some v := by
  rw [List.getElem?_set]
  simp [getElem?_lt_of_some h]

theorem getElem?_set_other {l : List Entry} (a : Nat) (v : Entry) {j : Nat}
    (h : j ≠ a) : (l.set a v)[j]? = l[j]? := by
  rw [List.getElem?_set]
  simp [Ne.symm h]

/-- The remove scenario of the spec: entries a, b, c with b completed, filter
Active; removing filtered index 1 deletes c from the backing sequence. -/
theorem remove_scenario :
    State.remove { entries := [⟨"a", false, false⟩, ⟨"b", true, false⟩, ⟨"c", false, false⟩],
                   filter := .Active, value := "", edit_value := "" } 1 =
      some { entries := [⟨"a", false, false⟩, ⟨"b", true, false⟩],
             filter := .Active, value := "", edit_value := "" } := by
  decide

/-- The toggle scenario of the spec: entries a, b with b completed, filter
Completed; toggling filtered index 0 flips b to not completed. -/
theorem toggle_scenario :
    State.toggle { entries := [⟨"a", false, false⟩, ⟨"b", true, false⟩],
                   filter := .Completed, value := "", edit_value := "" } 0 =
      some { entries := [⟨"a", false, false⟩, ⟨"b", false, false⟩],
             filter := .Completed, value := "", edit_value := "" } := by
  decide

theorem length_filter_active_add_completed :
    ∀ l : List Entry,
      (l.filter (fun e => Filter.Active.fit e)).length
        + (l.filter (fun e => Filter.Completed.fit e)).length = l.length := by
  intro l
  induction l with
  | nil => rfl
  | cons e rest ih =>
    cases he : e.completed <;>
      simp [List.filter_cons, Filter.fit, he, ← ih] <;> omega

/-- C9: for every filter f and entry list s, the filtered view of s under f is
an order-preserving sub-sequence of s whose members all satisfy f, and it is
the largest such sub-sequence (any sub-sequence of s all of whose members
satisfy f is a sub-sequence of the view), with All matching every entry,
Active matching exactly the non-completed entries and Completed matching
exactly the completed entries. -/
theorem filteredList_spec (f : Filter) (s : List Entry) :
    (filteredList f s).Sublist s ∧
    (∀ e ∈ filteredList f s, f.fit e = true) ∧
    (∀ l : List Entry, l.Sublist s → (∀ e ∈ l, f.fit e = true) →
      l.Sublist (filteredList f s)) ∧
    (∀ e, Filter.All.fit e = true) ∧
    (∀ e, Filter.Active.fit e = !e.completed) ∧
    (∀ e, Filter.Completed.fit e = e.completed) := by
  refine ⟨List.filter_sublist s, ?_, ?_, fun e => rfl, fun e => rfl, fun e => rfl⟩
  · intro e he
    exact (List.mem_filter.mp he).2
  · intro l hl hall
    have hself : l.filter (fun e => f.fit e) = l := List.filter_eq_self.mpr hall
    have hsub : (l.filter (fun e => f.fit e)).Sublist (s.filter (fun e => f.fit e)) :=
      List.Sublist.filter _ hl
    rw [hself] at hsub
    exact hsub

/-- C7: is_all_completed is true exactly when the filtered view is non-empty
and every entry in it is completed; in particular it is false whenever the
filtered view is empty, so it is false for an empty entry sequence under
every filter. -/
theorem is_all_completed_iff (s : State) :
    s.is_all_completed = true ↔
      (s.filteredView ≠ [] ∧ ∀ e ∈ s.filteredView, e.completed = true) := by
  simp only [State.is_all_completed, State.filteredView, filteredList]
  by_cases h : (s.entries.filter (fun e => s.filter.fit e)).isEmpty
  · simp [h, List.isEmpty_iff.mp h]
  · have hne : s.entries.filter (fun e => s.filter.fit e) ≠ [] := by
      intro hc
      rw [hc] at h
      exact h rfl
    simp only [h, if_false, Bool.false_eq_true, List.all_eq_true, List.mem_filter, and_imp,
      ne_eq, hne, not_false_iff, true_and, Bool.not_eq_true]

/-- C8: clear_completed keeps exactly the entries whose completed flag is
false, verbatim and in their original relative order (so descriptions and
editing flags are untouched), independently of the active filter, and the
number of removed entries is total_completed. -/
theorem clear_completed_spec (s : State) :
    (s.clear_completed).entries.Sublist s.entries ∧
    (∀ e ∈ (s.clear_completed).entries, e.completed = false) ∧
    (∀ l : List Entry, l.Sublist s.entries → (∀ e ∈ l, e.completed = false) →
      l.Sublist (s.clear_completed).entries) ∧
    (∀ f, (State.mk s.entries f s.value s.edit_value).clear_completed.entries
        = (s.clear_completed).entries) ∧
    (s.clear_completed).filter = s.filter ∧
    (s.clear_completed).entries.length + s.total_completed = s.total := by
  refine ⟨List.filter_sublist s.entries, ?_, ?_, fun f => rfl, rfl,
    length_filter_active_add_completed s.entries⟩
  · intro e he
    have := (List.mem_filter.mp he).2
    simpa [Filter.fit] using this
  · intro l hl hall
    have hall' : ∀ e ∈ l, Filter.Active.fit e = true := by
      intro e he
      simp [Filter.fit, hall e he]
    have hself : l.filter (fun e => Filter.Active.fit e) = l := List.filter_eq_self.mpr hall'
    have hsub : (l.filter (fun e => Filter.Active.fit e)).Sublist
        (s.entries.filter (fun e => Filter.Active.fit e)) := List.Sublist.filter _ hl
    rw [hself] at hsub
    exact hsub

/-- C10: handling the Add command appends to the end of the backing sequence,
independently of the active filter, a fresh entry whose description is the
current draft value and whose completed and editing flags are false; all
existing entries keep their positions and values, and the draft value is
reset to the empty string. -/
theorem update_add_spec (s : State) :
    (updateAdd s).entries
        = s.entries ++ [{ description := s.value, completed := false, editing := false }] ∧
    (updateAdd s).value = "" ∧
    (updateAdd s).filter = s.filter ∧
    (updateAdd s).edit_value = s.edit_value ∧
    (∀ j, j < s.entries.length → (updateAdd s).entries[j]? = s.entries[j]?) ∧
    (updateAdd s).entries[s.entries.length]?
        = some { description := s.value, completed := false, editing := false } ∧
    (∀ f, (updateAdd (State.mk s.entries f s.value s.edit_value)).entries
        = (updateAdd s).entries) := by
  refine ⟨rfl, rfl, rfl, rfl, ?_, ?_, fun f => rfl⟩
  · intro j hj
    simp [updateAdd, List.getElem?_append, hj]
  · exact List.getElem?_concat_length s.entries
      { description := s.value, completed := false, editing := false }

/-- C2: under the active filter, toggle at a valid filtered index i flips the
completed flag of exactly the i-th entry of the filtered view; every other
entry is untouched, and no description or editing flag changes anywhere,
including on the addressed entry. -/
theorem toggle_spec (s : State) (i : Nat) (h : i < s.filteredView.length) :
    ∃ (s' : State) (a : Nat) (e : Entry), s.toggle i = some s' ∧
      s.entries[a]? = some e ∧ s.filteredView[i]? = some e ∧
      s'.entries[a]? = some { e with completed := !e.completed } ∧
      (∀ j, j ≠ a → s'.entries[j]? = s.entries[j]?) ∧
      (∀ j : Nat, (s'.entries[j]?).map Entry.description = (s.entries[j]?).map Entry.description) ∧
      (∀ j : Nat, (s'.entries[j]?).map Entry.editing = (s.entries[j]?).map Entry.editing) ∧
      s'.filter = s.filter ∧ s'.value = s.value ∧ s'.edit_value = s.edit_value ∧
      s'.entries.length = s.entries.length := by
  obtain ⟨a, e, hnm, h1, h2, h3, hmod⟩ :=
    modifyFiltered_resolved (fun e => s.filter.fit e)
      (fun e => { e with completed := !e.completed }) s.entries i
      (by simpa [State.filteredView, filteredList] using h)
  refine ⟨{ s with entries := s.entries.set a { e with completed := !e.completed } }, a, e,
    ?_, h1, h3, ?_, ?_, ?_, ?_, rfl, rfl, rfl, List.length_set ..⟩
  · simp [State.toggle, hmod]
  · exact getElem?_set_self h1
  · intro j hj
    exact getElem?_set_other a _ hj
  · intro j
    by_cases hj : j = a
    · subst hj
      rw [getElem?_set_self h1, h1]
      rfl
    · rw [getElem?_set_other a _ hj]
  · intro j
    by_cases hj : j = a
    · subst hj
      rw [getElem?_set_self h1, h1]
      rfl
    · rw [getElem?_set_other a _ hj]

/-- Witness for C2, the Completed-filter scenario of the spec: with entries
a (active) and b (completed) and filter Completed, toggling filtered index 0
addresses b. -/
theorem toggle_spec_witness :
    0 < (State.mk [⟨"a", false, false⟩, ⟨"b", true, false⟩] Filter.Completed "" "").filteredView.length ∧
    (∃ (s' : State) (a : Nat) (e : Entry),
      (State.mk [⟨"a", false, false⟩, ⟨"b", true, false⟩] Filter.Completed "" "").toggle 0 = some s' ∧
      (State.mk [⟨"a", false, false⟩, ⟨"b", true, false⟩] Filter.Completed "" "").entries[a]? = some e ∧
      (State.mk [⟨"a", false, false⟩, ⟨"b", true, false⟩] Filter.Completed "" "").filteredView[0]? = some e ∧
      s'.entries[a]? = some { e with completed := !e.completed } ∧
      (∀ j, j ≠ a → s'.entries[j]? =
        (State.mk [⟨"a", false, false⟩, ⟨"b", true, false⟩] Filter.Completed "" "").entries[j]?) ∧
      (∀ j : Nat, (s'.entries[j]?).map Entry.description =
        ((State.mk [⟨"a", false, false⟩, ⟨"b", true, false⟩] Filter.Completed "" "").entries[j]?).map Entry.description) ∧
      (∀ j : Nat, (s'.entries[j]?).map Entry.editing =
        ((State.mk [⟨"a", false, false⟩, ⟨"b", true, false⟩] Filter.Completed "" "").entries[j]?).map Entry.editing) ∧
      s'.filter = Filter.Completed ∧ s'.value = "" ∧ s'.edit_value = "" ∧
      s'.entries.length =
        (State.mk [⟨"a", false, false⟩, ⟨"b", true, false⟩] Filter.Completed "" "").entries.length) :=
  ⟨by decide,
    toggle_spec (State.mk [⟨"a", false, false⟩, ⟨"b", true, false⟩] Filter.Completed "" "") 0
      (by decide)⟩

/-- C3: every filtered-index operation called with an index at or beyond the
number of entries matching the current filter fails (the unwrap on the
resolved reference panics, embedded as none), and no mutated state is
produced, so the entry sequence and filter are unchanged. -/
theorem out_of_range_spec (s : State) (i : Nat) (h : s.filteredView.length ≤ i) :
    s.toggle i = none ∧ s.toggle_edit i = none ∧
    (∀ t, s.complete_edit i t = none) ∧ s.remove i = none := by
  have hn : nthMatch (fun e => s.filter.fit e) s.entries i = none :=
    nthMatch_none _ s.entries i (by simpa [State.filteredView, filteredList] using h)
  refine ⟨?_, ?_, fun t => ?_, ?_⟩
  · simp [State.toggle, modifyFiltered_eq_nthMatch, hn]
  · simp [State.toggle_edit, modifyFiltered_eq_nthMatch, hn]
  · simp [State.complete_edit, modifyFiltered_eq_nthMatch, hn]
  · unfold State.remove
    rw [enum_filter_getElem, hn]

/-- Witness for C3: with the single non-completed entry a and filter
Completed, the filtered view is empty, so index 0 is out of range for all
four operations. -/
theorem out_of_range_spec_witness :
    (State.mk [⟨"a", false, false⟩] Filter.Completed "" "").filteredView.length ≤ 0 ∧
    (State.mk [⟨"a", false, false⟩] Filter.Completed "" "").toggle 0 = none ∧
    (State.mk [⟨"a", false, false⟩] Filter.Completed "" "").toggle_edit 0 = none ∧
    (State.mk [⟨"a", false, false⟩] Filter.Completed "" "").complete_edit 0 "x" = none ∧
    (State.mk [⟨"a", false, false⟩] Filter.Completed "" "").remove 0 = none := by
  have h := out_of_range_spec (State.mk [⟨"a", false, false⟩] Filter.Completed "" "") 0 (by decide)
  exact ⟨by decide, h.1, h.2.1, h.2.2.1 "x", h.2.2.2⟩

/-- C4 counterexample: complete_edit flips the editing flag instead of forcing
it to false; on an entry whose editing flag is already false, the flag is
true after the call, at the valid filtered index 0. -/
theorem complete_edit_editing_cex :
    0 < (State.mk [⟨"a", false, false⟩] Filter.All "" "").filteredView.length ∧
    (State.mk [⟨"a", false, false⟩] Filter.All "" "").complete_edit 0 "x" =
      some (State.mk [⟨"x", false, true⟩] Filter.All "" "") ∧
    ((State.mk [⟨"a", false, false⟩] Filter.All "" "").complete_edit 0 "x").map
        (fun s' => s'.entries.map Entry.editing) = some [true] := by
  exact ⟨by decide, by decide, by decide⟩

/-- C4 as amended: complete_edit at a valid filtered index sets the addressed
entry description to the given text and flips its editing flag (false after
the call exactly when it was true before); the completed flag and all other
entries are untouched. -/
theorem complete_edit_spec (s : State) (i : Nat) (t : String)
    (h : i < s.filteredView.length) :
    ∃ (s' : State) (a : Nat) (e : Entry), s.complete_edit i t = some s' ∧
      s.entries[a]? = some e ∧ s.filteredView[i]? = some e ∧
      s'.entries[a]? = some { e with description := t, editing := !e.editing } ∧
      (∀ j, j ≠ a → s'.entries[j]? = s.entries[j]?) ∧
      (∀ j : Nat, (s'.entries[j]?).map Entry.completed = (s.entries[j]?).map Entry.completed) ∧
      s'.filter = s.filter ∧ s'.entries.length = s.entries.length := by
  obtain ⟨a, e, hnm, h1, h2, h3, hmod⟩ :=
    modifyFiltered_resolved (fun e => s.filter.fit e)
      (fun e => { e with description := t, editing := !e.editing }) s.entries i
      (by simpa [State.filteredView, filteredList] using h)
  refine ⟨{ s with entries := s.entries.set a { e with description := t, editing := !e.editing } },
    a, e, ?_, h1, h3, ?_, ?_, ?_, rfl, List.length_set ..⟩
  · simp [State.complete_edit, hmod]
  · exact getElem?_set_self h1
  · intro j hj
    exact getElem?_set_other a _ hj
  · intro j
    by_cases hj : j = a
    · subst hj
      rw [getElem?_set_self h1, h1]
      rfl
    · rw [getElem?_set_other a _ hj]

/-- Witness for C4 as amended: completing the edit of the only entry, which is
in editing mode, writes the new text and leaves editing mode. -/
theorem complete_edit_spec_witness :
    0 < (State.mk [⟨"a", false, true⟩] Filter.All "" "").filteredView.length ∧
    (∃ (s' : State) (a : Nat) (e : Entry),
      (State.mk [⟨"a", false, true⟩] Filter.All "" "").complete_edit 0 "x" = some s' ∧
      (State.mk [⟨"a", false, true⟩] Filter.All "" "").entries[a]? = some e ∧
      (State.mk [⟨"a", false, true⟩] Filter.All "" "").filteredView[0]? = some e ∧
      s'.entries[a]? = some { e with description := "x", editing := !e.editing } ∧
      (∀ j, j ≠ a → s'.entries[j]? =
        (State.mk [⟨"a", false, true⟩] Filter.All "" "").entries[j]?) ∧
      (∀ j : Nat, (s'.entries[j]?).map Entry.completed =
        ((State.mk [⟨"a", false, true⟩] Filter.All "" "").entries[j]?).map Entry.completed) ∧
      s'.filter = Filter.All ∧
      s'.entries.length = (State.mk [⟨"a", false, true⟩] Filter.All "" "").entries.length) :=
  ⟨by decide,
    complete_edit_spec (State.mk [⟨"a", false, true⟩] Filter.All "" "") 0 "x" (by decide)⟩

/-- C1: under the active filter, remove at a valid filtered index i deletes
from the backing sequence exactly the entry standing at filtered position i,
at its absolute position a: the total count drops by one, entries before a
keep their positions and values, entries after a shift down by one absolute
position, and no surviving entry is modified. -/
theorem remove_spec (s : State) (i : Nat) (h : i < s.filteredView.length) :
    ∃ (s' : State) (a : Nat) (e : Entry), s.remove i = some s' ∧
      s.entries[a]? = some e ∧ s.filteredView[i]? = some e ∧
      s'.entries = s.entries.take a ++ s.entries.drop (a + 1) ∧
      s'.total + 1 = s.total ∧
      s'.filter = s.filter ∧ s'.value = s.value ∧ s'.edit_value = s.edit_value ∧
      (∀ j, j < a → s'.entries[j]? = s.entries[j]?) ∧
      (∀ j, a ≤ j → s'.entries[j]? = s.entries[j + 1]?) := by
  obtain ⟨a, e, hnm⟩ := nthMatch_isSome (fun e => s.filter.fit e) s.entries i
    (by simpa [State.filteredView, filteredList] using h)
  obtain ⟨h1, h2, h3⟩ := nthMatch_spec _ s.entries i a e hnm
  have halen : a < s.entries.length := getElem?_lt_of_some h1
  refine ⟨{ s with entries := s.entries.eraseIdx a }, a, e, ?_, h1, h3,
    List.eraseIdx_eq_take_drop_succ s.entries a, ?_, rfl, rfl, rfl, ?_, ?_⟩
  · unfold State.remove
    rw [enum_filter_getElem, hnm]
  · show (s.entries.eraseIdx a).length + 1 = s.entries.length
    rw [List.length_eraseIdx, if_pos halen]
    omega
  · intro j hj
    show (s.entries.eraseIdx a)[j]? = s.entries[j]?
    rw [List.eraseIdx_eq_take_drop_succ, List.getElem?_append]
    have hlt : j < (s.entries.take a).length := by
      rw [List.length_take]
      omega
    rw [if_pos hlt, List.getElem?_take, if_pos hj]
  · intro j hj
    show (s.entries.eraseIdx a)[j]? = s.entries[j + 1]?
    rw [List.eraseIdx_eq_take_drop_succ, List.getElem?_append]
    have hlen : (s.entries.take a).length = a := by
      rw [List.length_take]
      omega
    have hnlt : ¬j < (s.entries.take a).length := by
      omega
    rw [if_neg hnlt, List.getElem?_drop, hlen]
    congr 1
    omega

/-- Witness for C1, the Active-filter scenario of the spec: entries a, b, c
with b completed, filter Active; removing filtered index 1 deletes c, at
absolute position 2. -/
theorem remove_spec_witness :
    1 < (State.mk [⟨"a", false, false⟩, ⟨"b", true, false⟩, ⟨"c", false, false⟩]
          Filter.Active "" "").filteredView.length ∧
    (∃ (s' : State) (a : Nat) (e : Entry),
      (State.mk [⟨"a", false, false⟩, ⟨"b", true, false⟩, ⟨"c", false, false⟩]
          Filter.Active "" "").remove 1 = some s' ∧
      (State.mk [⟨"a", false, false⟩, ⟨"b", true, false⟩, ⟨"c", false, false⟩]
          Filter.Active "" "").entries[a]? = some e ∧
      (State.mk [⟨"a", false, false⟩, ⟨"b", true, false⟩, ⟨"c", false, false⟩]
          Filter.Active "" "").filteredView[1]? = some e ∧
      s'.entries =
        (State.mk [⟨"a", false, false⟩, ⟨"b", true, false⟩, ⟨"c", false, false⟩]
          Filter.Active "" "").entries.take a ++
        (State.mk [⟨"a", false, false⟩, ⟨"b", true, false⟩, ⟨"c", false, false⟩]
          Filter.Active "" "").entries.drop (a + 1) ∧
      s'.total + 1 =
        (State.mk [⟨"a", false, false⟩, ⟨"b", true, false⟩, ⟨"c", false, false⟩]
          Filter.Active "" "").total ∧
      s'.filter = Filter.Active ∧ s'.value = "" ∧ s'.edit_value = "" ∧
      (∀ j, j < a → s'.entries[j]? =
        (State.mk [⟨"a", false, false⟩, ⟨"b", true, false⟩, ⟨"c", false, false⟩]
          Filter.Active "" "").entries[j]?) ∧
      (∀ j, a ≤ j → s'.entries[j]? =
        (State.mk [⟨"a", false, false⟩, ⟨"b", true, false⟩, ⟨"c", false, false⟩]
          Filter.Active "" "").entries[j + 1]?)) :=
  ⟨by decide,
    remove_spec (State.mk [⟨"a", false, false⟩, ⟨"b", true, false⟩, ⟨"c", false, false⟩]
      Filter.Active "" "") 1 (by decide)⟩

/-- C5: the bug in the ToggleEdit handler. With entries a (completed) and b
(not completed) under filter Active, filtered index 0 is valid and addresses
b, yet handling ToggleEdit 0 seeds the edit buffer from backing position 0:
the buffer receives the description of a while the editing flag of b is the
one flipped, so the buffer is not seeded from the entry being toggled. -/
theorem update_toggle_edit_seed_mismatch :
    0 < (State.mk [⟨"a", true, false⟩, ⟨"b", false, false⟩] Filter.Active "" "").filteredView.length ∧
    updateToggleEdit (State.mk [⟨"a", true, false⟩, ⟨"b", false, false⟩] Filter.Active "" "") 0 =
      some (State.mk [⟨"a", true, false⟩, ⟨"b", false, true⟩] Filter.Active "" "a") ∧
    ((State.mk [⟨"a", true, false⟩, ⟨"b", false, false⟩] Filter.Active "" "").filteredView[0]?).map
        Entry.description = some "b" := by
  exact ⟨by decide, by decide, by decide⟩

theorem filter_completed_all (l : List Entry) :
    (l.filter (fun e => e.completed)).all (fun e => e.completed) = true := by
  rw [List.all_eq_true]
  intro e he
  exact (List.mem_filter.mp he).2

theorem isEmpty_map {f : Entry → Entry} : ∀ l : List Entry, (l.map f).isEmpty = l.isEmpty
  | [] => rfl
  | _ :: _ => rfl

theorem map_completed_true_all (l : List Entry) :
    (l.map (fun e => { e with completed := true })).all (fun e => e.completed) = true := by
  rw [List.all_eq_true]
  intro e he
  obtain ⟨x, _, rfl⟩ := List.mem_map.mp he
  rfl

theorem completed_map_id : ∀ l : List Entry,
    l.map (fun e => if e.completed = true then { e with completed := true } else e) = l := by
  intro l
  induction l with
  | nil => rfl
  | cons e rest ih =>
    by_cases h : e.completed = true
    · have : { e with completed := true } = e := by
        cases e
        simp_all
      simp [h, this, ih]
    · simp [h, ih]

theorem active_map_view_nil (l : List Entry) :
    (l.map (fun e => if e.completed = false then { e with completed := true } else e)).filter
      (fun e => !e.completed) = [] := by
  rw [List.filter_eq_nil_iff]
  intro a ha
  obtain ⟨x, _, rfl⟩ := List.mem_map.mp ha
  by_cases h : x.completed = false
  · simp [h]
  · have hx : x.completed = true := by
      revert h
      cases x.completed <;> simp
    simp [h, hx]

/-- C6 counterexample: with the single non-completed entry a and filter
Active, the filtered view is non-empty before toggle_all true, yet after
toggle_all true the call is_all_completed returns false (the Active view has
emptied), contradicting the claim that it returns true whenever the view was
non-empty before. -/
theorem toggle_all_active_cex :
    (State.mk [⟨"a", false, false⟩] Filter.Active "" "").filteredView ≠ [] ∧
    ((State.mk [⟨"a", false, false⟩] Filter.Active "" "").toggle_all true).is_all_completed
      = false := by
  exact ⟨by decide, by decide⟩

/-- C6 as amended: after toggle_all true, is_all_completed under the same
filter is true exactly when the filter is All or Completed and the filtered
view was non-empty before the call; under the Active filter the view empties
and is_all_completed is false, and whenever the view is empty before the call
is_all_completed is false both before and after (the before value being
non-empty conjoined with all-completed over the view). -/
theorem toggle_all_is_all_completed (s : State) :
    ((s.toggle_all true).is_all_completed
      = (decide (s.filter ≠ Filter.Active) && !s.filteredView.isEmpty)) ∧
    s.is_all_completed
      = (!s.filteredView.isEmpty && s.filteredView.all (fun e => e.completed)) := by
  constructor
  · obtain ⟨l, f, v, ev⟩ := s
    cases f
    · simp only [State.toggle_all, State.is_all_completed, State.filteredView, filteredList]
      simp +decide [Filter.fit, List.filter_true, isEmpty_map, map_completed_true_all]
      cases hemp : l.isEmpty with
      | false =>
        simp [hemp, map_completed_true_all]
        exact List.isEmpty_eq_false.mp hemp
      | true =>
        simp [hemp, map_completed_true_all]
        exact List.isEmpty_iff.mp hemp
    · simp only [State.toggle_all, State.is_all_completed, State.filteredView, filteredList]
      simp +decide [Filter.fit, active_map_view_nil]
    · simp only [State.toggle_all, State.is_all_completed, State.filteredView, filteredList]
      simp +decide [Filter.fit, completed_map_id, filter_completed_all]
      cases hemp : (l.filter (fun e => e.completed)).isEmpty with
      | false =>
        simp [hemp, filter_completed_all]
        obtain ⟨x, hx⟩ := List.exists_mem_of_ne_nil _ (List.isEmpty_eq_false.mp hemp)
        obtain ⟨hxl, hxc⟩ := List.mem_filter.mp hx
        exact ⟨x, hxl, hxc⟩
      | true =>
        simp [hemp, filter_completed_all]
        have hnil := List.filter_eq_nil_iff.mp (List.isEmpty_iff.mp hemp)
        intro x hxl
        have := hnil x hxl
        revert this
        cases x.completed <;> simp
  · simp only [State.is_all_completed, State.filteredView, filteredList]
    cases hemp : (s.entries.filter (fun e => s.filter.fit e)).isEmpty <;> simp [hemp]

end Todo
